import Mathlib

/-!
Verification development for the fluido mixer-synthesis pipeline.

The definitions below are shallow embeddings of the Rust sources:
  * `fluido-types/src/concentration.rs` (`LimitedFloat`, the quantized number),
  * `fluido-types/src/fluid.rs` (`Fluid`, `Fluid::mix`),
  * `fluido-ir/src/ir.rs`, `ir_builder.rs` (IR and lowering),
  * `fluido-ir/src/analysis/liveness.rs` (`LivenessAnalysis::analyze`),
  * `fluido-ir/src/regalloc/interference_graph.rs` (graph build and coloring),
  * `fluido-generation/src/lib.rs` (cost function, rewrite guards, analysis).

Modelling conventions: `i64` is modelled as `ℤ` (overflow is out of scope of
the claims); the `f64` round-trips inside `LimitedFloat` multiplication and
division are modelled as exact rational arithmetic followed by Rust's
`round` (half away from zero), which agrees with the `f64` computation on
the magnitudes the claims exercise; the Z3 solver is modelled as an exact
decision procedure for the asserted coloring constraints; a Rust `panic!`
or `unwrap` failure is modelled by `Option.none`.
-/

namespace Fluido

/-- Rust `f64::round`: nearest integer, half-way cases away from zero. -/
def ratRound (q : ℚ) : ℤ :=
  if 0 ≤ q then ⌊q + 1 / 2⌋ else ⌈q - 1 / 2⌉

/-- `LimitedFloat` from `concentration.rs`: a fixed-step quantized number,
an integer `wrapped` interpreted as `wrapped * EPSILON` with
`EPSILON = 0.0001`. -/
structure LimitedFloat where
  wrapped : ℤ
deriving DecidableEq, Repr

namespace LimitedFloat

/-- `LimitedFloat::EPSILON = 0.0001`, as an exact rational. -/
def epsilon : ℚ := 1 / 10000

/-- `From<LimitedFloat> for f64`: the value `wrapped * EPSILON`
(the `trunc`-at-`f64::EPSILON` step of the source is the identity in the
exact-rational model). -/
def toRat (x : LimitedFloat) : ℚ := x.wrapped * epsilon

/-- `From<f64> for LimitedFloat`: `round(value / EPSILON)`. -/
def fromRat (q : ℚ) : LimitedFloat := ⟨ratRound (q / epsilon)⟩

/-- `Add for LimitedFloat`: integer addition of the wrapped values. -/
def add (a b : LimitedFloat) : LimitedFloat := ⟨a.wrapped + b.wrapped⟩

/-- `Sub for LimitedFloat`: integer subtraction of the wrapped values. -/
def sub (a b : LimitedFloat) : LimitedFloat := ⟨a.wrapped - b.wrapped⟩

/-- `Mul for LimitedFloat`: convert both sides out, multiply, re-quantize. -/
def mul (a b : LimitedFloat) : LimitedFloat := fromRat (toRat a * toRat b)

/-- `Div for LimitedFloat`: convert both sides out, divide, re-quantize. -/
def div (a b : LimitedFloat) : LimitedFloat := fromRat (toRat a / toRat b)

/-- `LimitedFloat::valid`: `0 ≤ wrapped ≤ 1/EPSILON`. -/
def valid (a : LimitedFloat) : Bool := 0 ≤ a.wrapped ∧ a.wrapped ≤ 10000

theorem toRat_add (a b : LimitedFloat) : (add a b).toRat = a.toRat + b.toRat := by
  simp [toRat, add, epsilon]
  ring

theorem toRat_sub (a b : LimitedFloat) : (sub a b).toRat = a.toRat - b.toRat := by
  simp [toRat, sub, epsilon]
  ring

theorem toRat_pos_iff (a : LimitedFloat) : 0 < a.toRat ↔ 0 < a.wrapped := by
  unfold toRat epsilon
  constructor
  · intro h
    by_contra hc
    push_neg at hc
    have : (a.wrapped : ℚ) ≤ 0 := by exact_mod_cast hc
    nlinarith
  · intro h
    have : (0 : ℚ) < (a.wrapped : ℚ) := by exact_mod_cast h
    nlinarith

end LimitedFloat

/-- `Fluid` from `fluid.rs`: a pair of a concentration and a unit volume,
both quantized numbers. -/
structure Fluid where
  concentration : LimitedFloat
  unit_volume : LimitedFloat
deriving DecidableEq, Repr

namespace Fluid

/-- `Fluid::mix` from `fluid.rs`: resulting volume is the (exact) sum of the
volumes, resulting concentration is
`(c_a * v_a + c_b * v_b) / (v_a + v_b)` computed in quantized arithmetic. -/
def mix (a b : Fluid) : Fluid :=
  let resulting_vol := LimitedFloat.add a.unit_volume b.unit_volume
  let self_mult := LimitedFloat.mul a.concentration a.unit_volume
  let other_mult := LimitedFloat.mul b.concentration b.unit_volume
  let resulting_conc := LimitedFloat.div (LimitedFloat.add self_mult other_mult) resulting_vol
  ⟨resulting_conc, resulting_vol⟩

end Fluid

/-- `volume_valid` from `fluido-generation/src/lib.rs`: the quantized half
`vol / 2` must round-trip to exactly half the volume's value (no precision
loss) and be strictly positive. -/
def volumeValid (vol : LimitedFloat) : Bool :=
  let res := LimitedFloat.div vol (LimitedFloat.fromRat 2)
  let precision_preserved := decide (res.toRat = vol.toRat / 2)
  let volume_is_positive := decide (0 < res.toRat)
  volume_is_positive && precision_preserved

/-- `Operand` from `fluido-ir/src/ir.rs`: a constant fluid or a virtual
register. -/
inductive Operand where
  | const (f : Fluid)
  | vreg (n : ℕ)
deriving DecidableEq, Repr

/-- `IROp` from `fluido-ir/src/ir.rs`: `Store(value, dst)` or
`Mix(src_a, src_b, dst)`. -/
inductive IROp where
  | store (value : Operand) (dst : Operand)
  | mix (srcA : Operand) (srcB : Operand) (dst : Operand)
deriving DecidableEq, Repr

namespace IROp

/-- The target operand of an op, as matched in `LivenessAnalysis::analyze`. -/
def targetOperand : IROp → Operand
  | .store _ d => d
  | .mix _ _ d => d

/-- The target virtual register; `none` models the
`panic!("expected v reg as operand for liveness analysis")`. -/
def targetVreg (op : IROp) : Option ℕ :=
  match op.targetOperand with
  | .vreg n => some n
  | .const _ => none

/-- The gen set of `LivenessAnalysis::analyze`: empty for `Store`, the two
source registers for `Mix`; `none` models the panics on non-register
operands. -/
def genSet : IROp → Option (Finset ℕ)
  | .store _ _ => some ∅
  | .mix a b _ =>
    match a, b with
    | .vreg x, .vreg y => some {x, y}
    | _, _ => none

end IROp

/-- One iteration of the loop in `LivenessAnalysis::analyze`: take the
previously pushed set, drop the current target register, add the gen set. -/
def liveStep (prev : Finset ℕ) (op : IROp) : Option (Finset ℕ) :=
  match op.targetVreg, op.genSet with
  | some d, some g => some ((prev.erase d) ∪ g)
  | _, _ => none

/-- The accumulation loop of `LivenessAnalysis::analyze`, running over the
already reversed IR: each pushed set is `liveStep` of the last pushed set
(`HashSet::new()` for the first iteration). -/
def analyzeGo : List IROp → Finset ℕ → Option (List (Finset ℕ))
  | [], _ => some []
  | op :: rest, prev =>
    match liveStep prev op with
    | none => none
    | some s =>
      match analyzeGo rest s with
      | none => none
      | some t => some (s :: t)

/-- `LivenessAnalysis::analyze` from `fluido-ir/src/analysis/liveness.rs`:
reverse the IR, accumulate the per-op sets, reverse the result back. -/
def analyze (ops : List IROp) : Option (List (Finset ℕ)) :=
  (analyzeGo ops.reverse ∅).map List.reverse

/-- Mix-expression trees, the `Mix`/`Fluid` fragment of
`fluido_types::expr::Expr` that `IRBuilder::compile_expr` lowers (the other
variants return `None` and emit nothing). -/
inductive MixTree where
  | fluid (f : Fluid)
  | mix (l r : MixTree)
deriving DecidableEq, Repr

namespace MixTree

/-- Number of IR operations the tree lowers to (leaves plus internal nodes). -/
def size : MixTree → ℕ
  | .fluid _ => 1
  | .mix l r => l.size + r.size + 1

/-- Number of fluid leaves. -/
def leafCount : MixTree → ℕ
  | .fluid _ => 1
  | .mix l r => l.leafCount + r.leafCount

/-- Number of internal (mix) nodes. -/
def internalCount : MixTree → ℕ
  | .fluid _ => 0
  | .mix l r => l.internalCount + r.internalCount + 1

end MixTree

/-- `IRBuilder::compile_expr` from `fluido-ir/src/ir_builder.rs`, with the
output vector threaded explicitly: a `Fluid` leaf pushes
`Store(const, %len)` and returns `len`; a `Mix` compiles the left child,
then the right child, then pushes `Mix(%li, %ri, %len)` and returns `len`. -/
def compileExpr (ctx : List IROp) : MixTree → List IROp × ℕ
  | .fluid f => (ctx ++ [IROp.store (.const f) (.vreg ctx.length)], ctx.length)
  | .mix l r =>
    let resL := compileExpr ctx l
    let resR := compileExpr resL.1 r
    (resR.1 ++ [IROp.mix (.vreg resL.2) (.vreg resR.2) (.vreg resR.1.length)],
      resR.1.length)

/-- `IRBuilder::build_ir`: compile the root expression starting from an
empty output vector. -/
def buildIR (t : MixTree) : List IROp := (compileExpr [] t).1

/-- `InterferenceGraph` from `fluido-ir/src/regalloc/interference_graph.rs`:
an undirected petgraph over virtual registers, kept here as the list of node
weights and the list of added edges (parallel edges are kept, as petgraph
does). -/
structure IGraph where
  nodes : List ℕ
  edges : List (ℕ × ℕ)
deriving DecidableEq, Repr

namespace IGraph

/-- `graph.edges(node_ix).count()`: the number of edges incident to a node. -/
def degree (G : IGraph) (v : ℕ) : ℕ :=
  (G.edges.filter (fun e => e.1 = v || e.2 = v)).length

/-- `graph.node_indices().map(degree).max()` for a nonempty node list
(the `expect` on the empty graph is handled at the use site). -/
def maxDegree (G : IGraph) : ℕ :=
  (G.nodes.map G.degree).foldr max 0

/-- The constraint system `try_coloring` asserts to Z3: one integer per node
weight, each in `[0, k)`, and distinct values across every edge.
`Colorable G k` holds iff that system is satisfiable. -/
def Colorable (G : IGraph) (k : ℕ) : Prop :=
  ∃ c : ℕ → ℕ, (∀ v ∈ G.nodes, c v < k) ∧ ∀ e ∈ G.edges, c e.1 ≠ c e.2

/-- Index-based (decidable) form of the coloring constraints: a color for
each node position. -/
def ColorableIdx (G : IGraph) (k : ℕ) : Prop :=
  ∃ f : Fin G.nodes.length → Fin k,
    ∀ e ∈ G.edges, ∀ i j : Fin G.nodes.length,
      G.nodes.get i = e.1 → G.nodes.get j = e.2 → (f i : ℕ) ≠ (f j : ℕ)

instance (G : IGraph) (k : ℕ) : Decidable (G.ColorableIdx k) := by
  unfold ColorableIdx
  infer_instance

/-- `InterferenceGraph::try_coloring`, with Z3 modelled as an exact decision
procedure for the asserted constraints: returns a coloring exactly when the
constraint system is satisfiable (`Unsat`/`Unknown` are the `none` case). -/
def tryColoring (G : IGraph) (k : ℕ) : Bool := decide (G.ColorableIdx k)

/-- Well-formedness that `InterferenceGraphBuilder::build` guarantees:
every edge joins two distinct existing nodes. -/
def WF (G : IGraph) : Prop :=
  ∀ e ∈ G.edges, e.1 ∈ G.nodes ∧ e.2 ∈ G.nodes ∧ e.1 ≠ e.2

instance (G : IGraph) : Decidable (G.WF) := by
  unfold WF
  infer_instance

/-- The binary-search loop of `find_min_color_count`: while `lo ≤ hi`,
probe `mid = (lo + hi) / 2`; on success record the minimum and move the
upper bound to `mid - 1`, otherwise move the lower bound to `mid + 1`.
Fuel makes the recursion structural; callers pass enough fuel. -/
def minColorLoop (G : IGraph) : ℕ → ℕ → ℕ → ℕ → ℕ
  | 0, _, _, cur => cur
  | fuel + 1, lo, hi, cur =>
    if lo ≤ hi then
      let mid := (lo + hi) / 2
      if tryColoring G mid then
        minColorLoop G fuel lo (mid - 1) (min cur mid)
      else
        minColorLoop G fuel (mid + 1) hi cur
    else cur

/-- `InterferenceGraph::find_min_color_count`: `none` models the
`expect("expected to find a maxdegree...")` panic on a graph with no nodes;
otherwise binary search between `1` and `max degree + 1`, starting the
current minimum at `max degree + 1`. -/
def findMinColorCount (G : IGraph) : Option ℕ :=
  if G.nodes.isEmpty then none
  else some (minColorLoop G (G.maxDegree + 2) 1 (G.maxDegree + 1) (G.maxDegree + 1))

end IGraph

/-- All unordered pairs `(l[i], l[j])` with `i < j`, in the nested-loop
order of `InterferenceGraphBuilder::build`. -/
def livePairs : List ℕ → List (ℕ × ℕ)
  | [] => []
  | x :: rest => rest.map (fun y => (x, y)) ++ livePairs rest

/-- Union of a list of finite sets (the `all_vars` accumulation of
`InterferenceGraphBuilder::number_of_variables_used`). -/
def unionSets (sets : List (Finset ℕ)) : Finset ℕ :=
  sets.foldr (· ∪ ·) ∅

/-- `InterferenceGraphBuilder::number_of_variables_used`: the number of
distinct virtual registers across all liveness sets. -/
def numberOfVariablesUsed (sets : List (Finset ℕ)) : ℕ :=
  (unionSets sets).card

/-- `InterferenceGraphBuilder::build`: add one node per variable index
`0..n`, then a clique among every liveness set. The `var_ix_to_node_ix`
lookup panics (`none` here) if a live register is not below the count of
distinct registers; in that case the weight map cannot contain it. -/
def buildInterferenceGraph (sets : List (Finset ℕ)) : Option IGraph :=
  let n := numberOfVariablesUsed sets
  if sets.all (fun s => decide (∀ v ∈ s, v < n)) then
    some ⟨List.range n, sets.foldr (fun s acc => livePairs (s.sort (· ≤ ·)) ++ acc) []⟩
  else
    none

/-- `f64::MAX = (2^53 - 1) * 2^971`, the cost the extractor puts on a fluid
leaf carrying the target concentration. -/
def fMAX : ℚ := (2 ^ 53 - 1) * 2 ^ 971

/-- An e-node of the `MixLang` language from `fluido-generation/src/lib.rs`,
children given as e-class ids. -/
inductive MixNode where
  | lit (x : LimitedFloat)
  | add (a b : ℕ)
  | sub (a b : ℕ)
  | div (a b : ℕ)
  | mult (a b : ℕ)
  | mixN (a b : ℕ)
  | fluidN (a b : ℕ)
deriving DecidableEq, Repr

namespace MixNode

/-- The child e-class ids of an e-node, in order. -/
def children : MixNode → List ℕ
  | .lit _ => []
  | .add a b => [a, b]
  | .sub a b => [a, b]
  | .div a b => [a, b]
  | .mult a b => [a, b]
  | .mixN a b => [a, b]
  | .fluidN a b => [a, b]

end MixNode

/-- `OpCost::proximity_cost`: iterate over the stock, keeping the smallest
absolute difference between the concentration and a stock concentration,
starting from `1.0` (the difference is the exact integer subtraction of the
wrapped values, read back as a number). -/
def proximityCost (conc : LimitedFloat) (stock : List LimitedFloat) : ℚ :=
  stock.foldl
    (fun m val =>
      let diff := |(LimitedFloat.sub conc val).toRat|
      if diff < m then diff else m)
    1

/-- The `MixLang::Fluid` arm of `OpCost::cost`: if both children carry
numeric analysis data, the fluid is free when its concentration is in
stock, `f64::MAX` when it is the target outside the stock, and proximity
scaled by `1/EPSILON` otherwise; `1000` when a child is not numeric. -/
def fluidBaseCost (target : LimitedFloat) (stock : List LimitedFloat) :
    Option LimitedFloat → Option LimitedFloat → ℚ
  | some conc, some _vol =>
    if conc ∈ stock then 0
    else if target = conc then fMAX
    else proximityCost conc stock * 10000
  | _, _ => 1000

/-- `OpCost::cost`: the base cost of an e-node (given the analysis data of
e-classes) folded together with the already-minimized costs of its
children. `data` is `expect_limited_float` of an e-class's analysis datum. -/
def opCost (target : LimitedFloat) (stock : List LimitedFloat)
    (data : ℕ → Option LimitedFloat) (costs : ℕ → ℚ) (enode : MixNode) : ℚ :=
  let base : ℚ :=
    match enode with
    | .lit _ => 0
    | .add _ _ => 100
    | .sub _ _ => 100
    | .div _ _ => 100
    | .mult _ _ => 100
    | .mixN _ _ => 1
    | .fluidN a b => fluidBaseCost target stock (data a) (data b)
  enode.children.foldl (fun sum i => sum + costs i) base

/-- A concrete `MixLang` expression tree (`RecExpr`), as returned by the
extractor. -/
inductive MixExpr where
  | lit (x : LimitedFloat)
  | add (l r : MixExpr)
  | sub (l r : MixExpr)
  | div (l r : MixExpr)
  | mult (l r : MixExpr)
  | mixE (l r : MixExpr)
  | fluidE (c v : MixExpr)
deriving DecidableEq, Repr

namespace MixExpr

/-- `expect_limited_float` of the `ArithmeticAnalysis` datum of the e-class
containing this subtree: a literal carries its number, an arithmetic node
whose children carry numbers folds them, `Mix`/`Fluid` classes carry a
fluid datum (or none), so `expect_limited_float` gives `none`. -/
def nodeData : MixExpr → Option LimitedFloat
  | .lit x => some x
  | .add l r => do pure (LimitedFloat.add (← l.nodeData) (← r.nodeData))
  | .sub l r => do pure (LimitedFloat.sub (← l.nodeData) (← r.nodeData))
  | .div l r => do pure (LimitedFloat.div (← l.nodeData) (← r.nodeData))
  | .mult l r => do pure (LimitedFloat.mul (← l.nodeData) (← r.nodeData))
  | .mixE _ _ => none
  | .fluidE _ _ => none

/-- Total cost of a concrete expression tree under `OpCost`: the base cost
of each node (with the analysis data of its child classes) summed over the
tree. -/
def treeCost (target : LimitedFloat) (stock : List LimitedFloat) : MixExpr → ℚ
  | .lit _ => 0
  | .add l r => 100 + l.treeCost target stock + r.treeCost target stock
  | .sub l r => 100 + l.treeCost target stock + r.treeCost target stock
  | .div l r => 100 + l.treeCost target stock + r.treeCost target stock
  | .mult l r => 100 + l.treeCost target stock + r.treeCost target stock
  | .mixE l r => 1 + l.treeCost target stock + r.treeCost target stock
  | .fluidE c v =>
    fluidBaseCost target stock c.nodeData v.nodeData
      + c.treeCost target stock + v.treeCost target stock

/-- Whether the tree contains a fluid node whose (numeric) concentration
equals the target while the target is not in stock — the configuration the
cost function prices at `f64::MAX`. -/
def hasForbiddenFluidLeaf (target : LimitedFloat) (stock : List LimitedFloat) :
    MixExpr → Bool
  | .lit _ => false
  | .add l r => l.hasForbiddenFluidLeaf target stock || r.hasForbiddenFluidLeaf target stock
  | .sub l r => l.hasForbiddenFluidLeaf target stock || r.hasForbiddenFluidLeaf target stock
  | .div l r => l.hasForbiddenFluidLeaf target stock || r.hasForbiddenFluidLeaf target stock
  | .mult l r => l.hasForbiddenFluidLeaf target stock || r.hasForbiddenFluidLeaf target stock
  | .mixE l r => l.hasForbiddenFluidLeaf target stock || r.hasForbiddenFluidLeaf target stock
  | .fluidE c v =>
    (match c.nodeData, v.nodeData with
      | some conc, some _vol => decide (conc = target) && !decide (conc ∈ stock)
      | _, _ => false)
      || c.hasForbiddenFluidLeaf target stock || v.hasForbiddenFluidLeaf target stock

end MixExpr

/-- `Extractor::find_best` specialized to an acyclic e-graph: for an
e-class, build the expression of each candidate e-node (extracting each
child class first; fuel bounds the recursion depth) and pick the one
minimizing `treeCost` (first minimum wins). On the e-graphs used below
every class holds a single node, so the choice is forced. -/
def extractBest (classes : List (List MixNode)) (target : LimitedFloat)
    (stock : List LimitedFloat) : ℕ → ℕ → Option MixExpr
  | 0, _ => none
  | fuel + 1, i => do
    let nodes ← classes.get? i
    let candidates := nodes.filterMap (fun n =>
      match n with
      | .lit x => some (MixExpr.lit x)
      | .add a b => do
        pure (MixExpr.add (← extractBest classes target stock fuel a)
          (← extractBest classes target stock fuel b))
      | .sub a b => do
        pure (MixExpr.sub (← extractBest classes target stock fuel a)
          (← extractBest classes target stock fuel b))
      | .div a b => do
        pure (MixExpr.div (← extractBest classes target stock fuel a)
          (← extractBest classes target stock fuel b))
      | .mult a b => do
        pure (MixExpr.mult (← extractBest classes target stock fuel a)
          (← extractBest classes target stock fuel b))
      | .mixN a b => do
        pure (MixExpr.mixE (← extractBest classes target stock fuel a)
          (← extractBest classes target stock fuel b))
      | .fluidN a b => do
        pure (MixExpr.fluidE (← extractBest classes target stock fuel a)
          (← extractBest classes target stock fuel b)))
    match candidates with
    | [] => none
    | e :: rest =>
      some (rest.foldl
        (fun best x =>
          if x.treeCost target stock < best.treeCost target stock then x else best)
        e)

/-- `ArithmeticAnalysisPayload`: the per-e-class analysis datum. -/
inductive APayload where
  | num (x : LimitedFloat)
  | fluid (f : Fluid)
  | bot
deriving DecidableEq, Repr

namespace APayload

/-- `ArithmeticAnalysisPayload::expect_limited_float`. -/
def expectLimitedFloat : APayload → Option LimitedFloat
  | .num x => some x
  | _ => none

end APayload

/-- `ArithmeticAnalysis::merge`, including the reference slip: the function
builds `Option<&mut Payload>` views of both sides and calls egg's
`merge_option` on them, so in the `(None, Some)` case only the local option
is overwritten and the underlying e-class datum stays `None`. The result is
`(datum of the target class after the call, DidMerge.0, DidMerge.1)`;
`none` models the `assert_eq!(*a, b, "Merged non-equal constants")`
failure. -/
def mergePayload : APayload → APayload → Option (APayload × Bool × Bool)
  | .bot, .bot => some (.bot, false, false)
  | .bot, _ => some (.bot, true, false)
  | a, .bot => some (a, false, true)
  | a, b => if a = b then some (a, false, false) else none

/-- The `Add`/`Sub`/`Div`/`Mult` arms of `ArithmeticAnalysis::make`: the
child data are `expect_limited_float`-ed and then `unwrap`-ed, so `none`
(the panic) results whenever a child does not carry a number. -/
def makeArith (op : LimitedFloat → LimitedFloat → LimitedFloat)
    (dataA dataB : APayload) : Option APayload :=
  match dataA.expectLimitedFloat, dataB.expectLimitedFloat with
  | some valA, some valB => some (.num (op valA valB))
  | _, _ => none

/-- Modelled from the spec (§3, analysis `make`): `Arithmetic node where
both children carry Number ⇒ Number(op), else ⊥` — the claimed total
behavior, for contrast with `makeArith`. -/
def makeArithSpec (op : LimitedFloat → LimitedFloat → LimitedFloat)
    (dataA dataB : APayload) : APayload :=
  match dataA.expectLimitedFloat, dataB.expectLimitedFloat with
  | some valA, some valB => .num (op valA valB)
  | _, _ => .bot

/-- Specification-side liveness: one set per instruction, computed by the
backward recurrence `sets[i] = (sets[i+1] \ def[i]) ∪ use[i]` with the
set past the end taken as `∅` (so the set at `i` is the set of registers
live into instruction `i`). -/
def liveInSpec : List IROp → Option (List (Finset ℕ))
  | [] => some []
  | op :: rest =>
    match liveInSpec rest with
    | none => none
    | some t =>
      match liveStep (t.headD ∅) op with
      | none => none
      | some s => some (s :: t)

namespace IROp

/-- Whether an op is a `Store`. -/
def isStore : IROp → Bool
  | .store _ _ => true
  | .mix _ _ _ => false

/-- Whether an op is a `Mix`. -/
def isMixOp : IROp → Bool
  | .store _ _ => false
  | .mix _ _ _ => true

end IROp

/-- Union of the gen (use) sets of a list of IR ops. -/
def gensUnion (ops : List IROp) : Finset ℕ :=
  ops.foldr (fun op acc => op.genSet.getD ∅ ∪ acc) ∅

/-- Specification-side proximity: the minimum over the stock of the
absolute difference to the concentration, capped at `1` (so an empty stock
gives `1`). -/
def specProximity (conc : LimitedFloat) (stock : List LimitedFloat) : ℚ :=
  (insert 1 ((stock.map fun s => |conc.toRat - s.toRat|).toFinset)).min'
    (Finset.insert_nonempty _ _)

/-- Specification-side base cost of an e-node (the table of §4.6 of the
spec, with the proximity written as a capped minimum). -/
def opCostSpecBase (target : LimitedFloat) (stock : List LimitedFloat)
    (data : ℕ → Option LimitedFloat) : MixNode → ℚ
  | .lit _ => 0
  | .add _ _ => 100
  | .sub _ _ => 100
  | .div _ _ => 100
  | .mult _ _ => 100
  | .mixN _ _ => 1
  | .fluidN a b =>
    match data a, data b with
    | some conc, some _vol =>
      if conc ∈ stock then 0
      else if target = conc then fMAX
      else specProximity conc stock * 10000
    | _, _ => 1000

/-- A concrete fluid literal `(fluid 0.2 1)`, as in the liveness unit test. -/
def exampleFluid : Fluid := ⟨⟨2000⟩, ⟨10000⟩⟩

/-- The IR `[Store→%0, Store→%1, Mix(%0,%1,%2)]` of the claims. -/
def exampleIR : List IROp :=
  [.store (.const exampleFluid) (.vreg 0),
   .store (.const exampleFluid) (.vreg 1),
   .mix (.vreg 0) (.vreg 1) (.vreg 2)]

/-- Target concentration `0.5` (wrapped `5000`). -/
def targetConc : LimitedFloat := ⟨5000⟩

/-- A stock holding only the concentration `0.9`. -/
def stock09 : List LimitedFloat := [⟨9000⟩]

/-- `from_float(f64::MAX)`: the `as i64` cast saturates at `i64::MAX`; this
is the volume of the synthesized initial target fluid node. -/
def initialVol : LimitedFloat := ⟨9223372036854775807⟩

/-- The e-classes of the initial e-graph of a saturation run that stops
before its first iteration (time limit exhausted): the concentration
literal, the volume literal, and the fluid node over them. -/
def initialClasses : List (List MixNode) :=
  [[.lit targetConc], [.lit initialVol], [.fluidN 0 1]]

theorem analyzeGo_length : ∀ (l : List IROp) (prev : Finset ℕ) (out : List (Finset ℕ)),
    analyzeGo l prev = some out → out.length = l.length := by
  intro l
  induction l with
  | nil =>
    intro prev out h
    simp [analyzeGo] at h
    simp [← h]
  | cons op rest ih =>
    intro prev out h
    simp only [analyzeGo] at h
    cases hs : liveStep prev op with
    | none => simp [hs] at h
    | some s =>
      simp only [hs] at h
      cases ht : analyzeGo rest s with
      | none => simp [ht] at h
      | some t =>
        simp only [ht, Option.some.injEq] at h
        have := ih s t ht
        simp [← h, this]

theorem analyzeGo_append_singleton :
    ∀ (l : List IROp) (op : IROp) (prev : Finset ℕ),
    analyzeGo (l ++ [op]) prev =
      match analyzeGo l prev with
      | none => none
      | some out => (liveStep (out.getLastD prev) op).map (fun s => out ++ [s]) := by
  intro l
  induction l with
  | nil =>
    intro op prev
    simp only [List.nil_append]
    cases h : liveStep prev op <;> simp [analyzeGo, h]
  | cons x xs ih =>
    intro op prev
    simp only [List.cons_append, analyzeGo]
    cases hs : liveStep prev x with
    | none => simp
    | some s =>
      simp only [List.append_eq]
      rw [ih op s]
      cases ht : analyzeGo xs s with
      | none => simp [ht]
      | some out =>
        simp only [ht, List.getLastD_cons]
        cases hr : liveStep (out.getLastD s) op <;> simp [hr]

theorem analyze_eq_liveInSpec : ∀ ops : List IROp, analyze ops = liveInSpec ops := by
  intro ops
  induction ops with
  | nil => simp [analyze, analyzeGo, liveInSpec]
  | cons op rest ih =>
    simp only [analyze, List.reverse_cons] at *
    rw [analyzeGo_append_singleton]
    simp only [liveInSpec]
    cases hgo : analyzeGo rest.reverse ∅ with
    | none =>
      rw [hgo] at ih
      simp only [Option.map_none'] at ih
      simp [← ih]
    | some out =>
      rw [hgo] at ih
      simp only [Option.map_some'] at ih
      rw [← ih]
      simp only []
      have hlast : out.getLastD ∅ = out.reverse.headD ∅ := by
        rw [List.getLastD_eq_getLast?, List.headD_eq_head?, List.head?_reverse]
      rw [hlast]
      cases hr : liveStep (out.reverse.headD ∅) op <;> simp [hr]

/-- C1 (counterexample): on the IR `[Store→%0, Store→%1, Mix(%0,%1,%2)]`
the analysis returns `[{}, {0}, {0,1}]`, not the claimed live-out sequence
`[{0}, {0,1}, {}]`. -/
theorem liveness_example_refutes_live_out :
    analyze exampleIR = some [∅, {0}, {0, 1}] ∧
      analyze exampleIR ≠ some [{0}, {0, 1}, ∅] := by
  constructor
  · decide
  · decide

/-- C1 (amended): the liveness analysis returns exactly one set per
instruction, and the set at position `i` is the set of virtual registers
live *into* instruction `i`: `sets[i] = (sets[i+1] \ def[i]) ∪ use[i]`,
with the set past the end taken as `{}` (this is `liveInSpec`); in
particular for the IR `[Store→%0, Store→%1, Mix(%0,%1,%2)]` the returned
sequence is `[{}, {0}, {0,1}]`. -/
theorem analyze_computes_live_in :
    (∀ ops : List IROp, analyze ops = liveInSpec ops) ∧
      (∀ (ops : List IROp) (sets : List (Finset ℕ)),
        analyze ops = some sets → sets.length = ops.length) ∧
      analyze exampleIR = some [∅, {0}, {0, 1}] := by
  refine ⟨analyze_eq_liveInSpec, ?_, by decide⟩
  intro ops sets h
  simp only [analyze, Option.map_eq_map] at h
  cases hgo : analyzeGo ops.reverse ∅ with
  | none => rw [hgo] at h; simp at h
  | some out =>
    rw [hgo] at h
    simp at h
    have := analyzeGo_length ops.reverse ∅ out hgo
    simp [← h, this]

/-- Witness for `analyze_computes_live_in` at the example IR. -/
theorem analyze_computes_live_in_witness :
    analyze exampleIR = liveInSpec exampleIR ∧
      ([∅, {0}, {0, 1}] : List (Finset ℕ)).length = exampleIR.length :=
  ⟨analyze_computes_live_in.1 exampleIR,
    analyze_computes_live_in.2.1 exampleIR [∅, {0}, {0, 1}] (by decide)⟩

/-- C5 (code bug): the `volume_valid` guard accepts the volume `0.0002`
(its quantized half `0.0001` is exact and positive), but mixing
`(fluid 0.0003 0.0001)` with itself — the right-hand side of
`expand-fluid-to-mix` for `a = 0.0003`, `b = 0.0002` — yields concentration
`0.0`, not `0.0003`: the quantized product `0.0003 * 0.0001` rounds to `0`,
so the rewrite does not preserve the fluid value (only the volume). -/
theorem expand_fluid_to_mix_guard_insufficient :
    volumeValid ⟨2⟩ = true ∧
      LimitedFloat.div ⟨2⟩ (LimitedFloat.fromRat 2) = ⟨1⟩ ∧
      (Fluid.mix ⟨⟨3⟩, ⟨1⟩⟩ ⟨⟨3⟩, ⟨1⟩⟩).unit_volume = ⟨2⟩ ∧
      (Fluid.mix ⟨⟨3⟩, ⟨1⟩⟩ ⟨⟨3⟩, ⟨1⟩⟩).concentration = ⟨0⟩ ∧
      (⟨0⟩ : LimitedFloat) ≠ ⟨3⟩ := by
  have hdiv : LimitedFloat.div ⟨2⟩ (LimitedFloat.fromRat 2) = ⟨1⟩ := by
    simp only [LimitedFloat.div, LimitedFloat.fromRat, LimitedFloat.toRat,
      LimitedFloat.epsilon, ratRound]
    norm_num
  have hmul : LimitedFloat.mul ⟨3⟩ ⟨1⟩ = ⟨0⟩ := by
    simp only [LimitedFloat.mul, LimitedFloat.fromRat, LimitedFloat.toRat,
      LimitedFloat.epsilon, ratRound]
    norm_num
  refine ⟨?_, hdiv, ?_, ?_, by decide⟩
  · simp only [volumeValid, hdiv, LimitedFloat.toRat, LimitedFloat.epsilon,
      Bool.and_eq_true, decide_eq_true_eq]
    norm_num
  · simp [Fluid.mix, LimitedFloat.add]
  · simp only [Fluid.mix, LimitedFloat.add, hmul]
    simp only [LimitedFloat.div, LimitedFloat.fromRat, LimitedFloat.toRat,
      LimitedFloat.epsilon, ratRound]
    norm_num

/-- C6: `Fluid::mix` returns the exact volume sum, and the concentration is
the quantized value of `(c_a·v_a + c_b·v_b) / (v_a + v_b)` computed in the
quantized arithmetic of §4.1 (each product re-quantized, the sums exact,
one final re-quantization by the division). -/
theorem mix_volume_and_concentration (a b : Fluid) :
    (Fluid.mix a b).unit_volume.toRat = a.unit_volume.toRat + b.unit_volume.toRat ∧
      (Fluid.mix a b).concentration =
        LimitedFloat.fromRat
          (((LimitedFloat.mul a.concentration a.unit_volume).toRat
              + (LimitedFloat.mul b.concentration b.unit_volume).toRat)
            / (a.unit_volume.toRat + b.unit_volume.toRat)) := by
  constructor
  · simp [Fluid.mix, LimitedFloat.toRat_add]
  · simp [Fluid.mix, LimitedFloat.div, LimitedFloat.toRat_add]

/-- C7 (code bug): `ArithmeticAnalysis::merge` on a target class with datum
`⊥` and an incoming concrete datum `Number(0.5)` leaves the target class
datum `⊥` (the write lands in a local `Option<&mut _>`), while reporting
`DidMerge(true, false)`; the claim expects the class to end up carrying
`Number(0.5)`. -/
theorem merge_drops_concrete_payload :
    mergePayload .bot (.num ⟨5000⟩) = some (.bot, true, false) ∧
      APayload.bot ≠ APayload.num ⟨5000⟩ := by
  refine ⟨rfl, by decide⟩

theorem MixTree.size_pos (t : MixTree) : 1 ≤ t.size := by
  cases t <;> simp [MixTree.size]

theorem gensUnion_append (a b : List IROp) :
    gensUnion (a ++ b) = gensUnion a ∪ gensUnion b := by
  induction a with
  | nil => simp [gensUnion]
  | cons op rest ih =>
    simp only [gensUnion, List.cons_append, List.foldr_cons] at *
    rw [ih, Finset.union_assoc]

theorem compileExpr_spec (t : MixTree) : ∀ ctx : List IROp,
    ∃ em : List IROp,
      (compileExpr ctx t).1 = ctx ++ em ∧
      em.length = t.size ∧
      (compileExpr ctx t).2 = ctx.length + t.size - 1 ∧
      em.map IROp.targetVreg = (List.range' ctx.length t.size).map some ∧
      (em.filter IROp.isStore).length = t.leafCount ∧
      (em.filter IROp.isMixOp).length = t.internalCount ∧
      gensUnion em = Finset.Ico ctx.length (ctx.length + t.size - 1) ∧
      ∀ op ∈ em, op.targetVreg.isSome ∧ op.genSet.isSome := by
  induction t with
  | fluid f =>
    intro ctx
    refine ⟨[IROp.store (.const f) (.vreg ctx.length)], rfl, rfl, ?_, ?_, ?_, ?_, ?_, ?_⟩
    · simp [compileExpr, MixTree.size]
    · simp [MixTree.size, List.range']
      rfl
    · simp [MixTree.leafCount, List.filter, IROp.isStore]
    · simp [MixTree.internalCount, List.filter, IROp.isMixOp]
    · simp [gensUnion, IROp.genSet, MixTree.size]
    · intro op hop
      simp at hop
      subst hop
      simp [IROp.targetVreg, IROp.targetOperand, IROp.genSet]
  | mix l r ihl ihr =>
    intro ctx
    obtain ⟨emL, hL1, hL2, hL3, hL4, hL5, hL6, hL7, hL8⟩ := ihl ctx
    obtain ⟨emR, hR1, hR2, hR3, hR4, hR5, hR6, hR7, hR8⟩ := ihr (compileExpr ctx l).1
    have hlenL : (compileExpr ctx l).1.length = ctx.length + l.size := by
      rw [hL1]; simp [hL2]
    have hlenR : (compileExpr (compileExpr ctx l).1 r).1.length
        = ctx.length + l.size + r.size := by
      rw [hR1]; simp [hR2, hlenL]
    have hposL := l.size_pos
    have hposR := r.size_pos
    refine ⟨emL ++ emR
        ++ [IROp.mix (.vreg ((compileExpr ctx l).2))
              (.vreg ((compileExpr (compileExpr ctx l).1 r).2))
              (.vreg ((compileExpr (compileExpr ctx l).1 r).1.length))],
      ?_, ?_, ?_, ?_, ?_, ?_, ?_, ?_⟩
    · show (compileExpr (compileExpr ctx l).1 r).1 ++ _ = _
      rw [hR1, hL1]
      simp
    · simp only [List.length_append, List.length_cons, List.length_nil, hL2, hR2,
        MixTree.size]
    · show (compileExpr (compileExpr ctx l).1 r).1.length = _
      rw [hlenR]
      simp only [MixTree.size]
      omega
    · rw [hlenL] at hR4
      have hsplit : List.range' ctx.length ((l.mix r).size)
          = List.range' ctx.length l.size
            ++ (List.range' (ctx.length + l.size) r.size
              ++ [ctx.length + l.size + r.size]) := by
        have h1 := List.range'_append ctx.length l.size (r.size + 1) 1
        simp only [one_mul] at h1
        have h2 := List.range'_1_concat (ctx.length + l.size) r.size
        simp only [MixTree.size]
        rw [show l.size + r.size + 1 = (r.size + 1) + l.size by omega, ← h1, h2]
      rw [hsplit]
      simp only [List.map_append, hL4, hR4, List.map_cons, List.map_nil,
        IROp.targetVreg, IROp.targetOperand]
      rw [hlenR]
      simp [List.append_assoc]
    · simp only [List.filter_append, List.length_append, hL5, hR5]
      have hmixfilter : List.filter IROp.isStore
          [IROp.mix (.vreg ((compileExpr ctx l).2))
            (.vreg ((compileExpr (compileExpr ctx l).1 r).2))
            (.vreg ((compileExpr (compileExpr ctx l).1 r).1.length))] = [] := rfl
      rw [hmixfilter]
      simp [MixTree.leafCount]
    · simp only [List.filter_append, List.length_append, hL6, hR6]
      have hmixfilter : List.filter IROp.isMixOp
          [IROp.mix (.vreg ((compileExpr ctx l).2))
            (.vreg ((compileExpr (compileExpr ctx l).1 r).2))
            (.vreg ((compileExpr (compileExpr ctx l).1 r).1.length))]
          = [IROp.mix (.vreg ((compileExpr ctx l).2))
              (.vreg ((compileExpr (compileExpr ctx l).1 r).2))
              (.vreg ((compileExpr (compileExpr ctx l).1 r).1.length))] := rfl
      rw [hmixfilter]
      simp [MixTree.internalCount]
    · rw [gensUnion_append, gensUnion_append, hL7]
      rw [hlenL] at hR7
      rw [hR7]
      have hsingle : gensUnion
          [IROp.mix (.vreg ((compileExpr ctx l).2))
            (.vreg ((compileExpr (compileExpr ctx l).1 r).2))
            (.vreg ((compileExpr (compileExpr ctx l).1 r).1.length))]
          = {(compileExpr ctx l).2, (compileExpr (compileExpr ctx l).1 r).2} := by
        simp [gensUnion, IROp.genSet]
      rw [hsingle, hL3, hR3, hlenL]
      ext x
      simp only [Finset.mem_union, Finset.mem_Ico, Finset.mem_insert,
        Finset.mem_singleton, MixTree.size]
      omega
    · intro op hop
      simp only [List.mem_append, List.mem_cons, List.not_mem_nil, or_false] at hop
      rcases hop with (h | h) | h
      · exact hL8 op h
      · exact hR8 op h
      · subst h
        simp [IROp.targetVreg, IROp.targetOperand, IROp.genSet]

/-- C10: lowering a `Mix`/`Fluid` tree emits one op per tree node in
post-order: the op list has length `size t`, the destination register of
the op at position `i` is exactly `i` (so registers are dense indices
defined once each), with exactly one `Store` per fluid leaf and exactly one
`Mix` per internal node. -/
theorem lowering_dense_ssa (t : MixTree) :
    (buildIR t).length = t.size ∧
      (buildIR t).map IROp.targetVreg = (List.range t.size).map some ∧
      ((buildIR t).filter IROp.isStore).length = t.leafCount ∧
      ((buildIR t).filter IROp.isMixOp).length = t.internalCount := by
  obtain ⟨em, h1, h2, _h3, h4, h5, h6, _h7, _h8⟩ := compileExpr_spec t []
  have hb : buildIR t = em := by
    simp only [buildIR, h1, List.nil_append]
  rw [hb, h2, List.range_eq_range']
  refine ⟨rfl, ?_, h5, h6⟩
  simpa using h4

theorem unionSets_append (a b : List (Finset ℕ)) :
    unionSets (a ++ b) = unionSets a ∪ unionSets b := by
  induction a with
  | nil => simp [unionSets]
  | cons s rest ih =>
    simp only [unionSets, List.cons_append, List.foldr_cons] at *
    rw [ih, Finset.union_assoc]

theorem unionSets_reverse (l : List (Finset ℕ)) :
    unionSets l.reverse = unionSets l := by
  induction l with
  | nil => rfl
  | cons s rest ih =>
    rw [List.reverse_cons, unionSets_append, ih]
    simp [unionSets, Finset.union_comm]

theorem gensUnion_reverse (l : List IROp) :
    gensUnion l.reverse = gensUnion l := by
  induction l with
  | nil => rfl
  | cons op rest ih =>
    rw [List.reverse_cons, gensUnion_append, ih]
    simp [gensUnion, Finset.union_comm]

theorem subset_unionSets {sets : List (Finset ℕ)} {s : Finset ℕ} (h : s ∈ sets) :
    s ⊆ unionSets sets := by
  induction sets with
  | nil => simp at h
  | cons t rest ih =>
    rcases List.mem_cons.1 h with h | h
    · subst h
      exact Finset.subset_union_left
    · exact (ih h).trans Finset.subset_union_right

theorem unionSets_eq_empty {sets : List (Finset ℕ)} (h : ∀ s ∈ sets, s = ∅) :
    unionSets sets = ∅ := by
  induction sets with
  | nil => rfl
  | cons t rest ih =>
    have ht := h t (by simp)
    simp only [unionSets, List.foldr_cons, ht]
    rw [Finset.empty_union]
    exact ih fun s hs => h s (by simp [hs])

theorem analyzeGo_total : ∀ (l : List IROp) (prev : Finset ℕ),
    (∀ op ∈ l, op.targetVreg.isSome ∧ op.genSet.isSome) →
    ∃ out, analyzeGo l prev = some out ∧
      unionSets out ⊆ prev ∪ gensUnion l ∧ gensUnion l ⊆ unionSets out := by
  intro l
  induction l with
  | nil =>
    intro prev _
    exact ⟨[], rfl, by simp [unionSets, gensUnion], by simp [unionSets, gensUnion]⟩
  | cons op rest ih =>
    intro prev hwf
    obtain ⟨d, hd⟩ := Option.isSome_iff_exists.1 (hwf op (by simp)).1
    obtain ⟨g, hg⟩ := Option.isSome_iff_exists.1 (hwf op (by simp)).2
    have hstep : liveStep prev op = some ((prev.erase d) ∪ g) := by
      simp [liveStep, hd, hg]
    obtain ⟨out, hout, hsub, hsup⟩ :=
      ih ((prev.erase d) ∪ g) (fun o ho => hwf o (by simp [ho]))
    refine ⟨((prev.erase d) ∪ g) :: out, ?_, ?_, ?_⟩
    · simp [analyzeGo, hstep, hout]
    · intro x hx
      simp only [unionSets, List.foldr_cons, Finset.mem_union, Finset.mem_erase] at hx
      have hx' : x ∈ prev.erase d ∪ g ∨ x ∈ unionSets out := by
        rcases hx with (hx | hx) | hx
        · exact Or.inl (Finset.mem_union_left _ (by simpa using hx))
        · exact Or.inl (Finset.mem_union_right _ hx)
        · exact Or.inr hx
      simp only [gensUnion, List.foldr_cons, hg, Option.getD_some, Finset.mem_union,
        Finset.mem_erase]
      rcases hx' with hx' | hx'
      · rcases Finset.mem_union.1 hx' with h | h
        · exact Or.inl (Finset.mem_of_mem_erase h)
        · exact Or.inr (Or.inl h)
      · have := hsub hx'
        rcases Finset.mem_union.1 this with h | h
        · rcases Finset.mem_union.1 h with h | h
          · exact Or.inl (Finset.mem_of_mem_erase h)
          · exact Or.inr (Or.inl h)
        · exact Or.inr (Or.inr h)
    · intro x hx
      simp only [gensUnion, List.foldr_cons, hg, Option.getD_some, Finset.mem_union] at hx
      simp only [unionSets, List.foldr_cons, Finset.mem_union]
      rcases hx with hx | hx
      · exact Or.inl (Or.inr hx)
      · exact Or.inr (hsup hx)

theorem analyze_total (ops : List IROp)
    (hwf : ∀ op ∈ ops, op.targetVreg.isSome ∧ op.genSet.isSome) :
    ∃ sets, analyze ops = some sets ∧ unionSets sets = gensUnion ops := by
  obtain ⟨out, hout, hsub, hsup⟩ :=
    analyzeGo_total ops.reverse ∅ (fun op ho => hwf op (List.mem_reverse.1 ho))
  refine ⟨out.reverse, ?_, ?_⟩
  · simp [analyze, hout]
  · rw [unionSets_reverse]
    rw [gensUnion_reverse] at hsub hsup
    refine Finset.Subset.antisymm ?_ hsup
    exact hsub.trans (by simp)

theorem buildEdges_of_empty (sets : List (Finset ℕ)) (h : ∀ s ∈ sets, s = ∅) :
    sets.foldr (fun s acc => livePairs (s.sort (· ≤ ·)) ++ acc) []
      = ([] : List (ℕ × ℕ)) := by
  induction sets with
  | nil => rfl
  | cons t rest ih =>
    have ht := h t (by simp)
    simp only [List.foldr_cons, ht, Finset.sort_empty]
    simpa [livePairs] using ih fun s hs => h s (by simp [hs])

/-- C3: if every liveness set is empty, the interference graph has zero
nodes and `find_min_color_count` panics (`none`); the IR lowered from a
single fluid leaf has exactly the all-empty liveness `[∅]`, while every
`Mix`-rooted tree lowers to an IR whose pipeline reaches a graph with at
least one node, where `find_min_color_count` does return a count — the
storage computation is partial at exactly the single-leaf designs. -/
theorem single_leaf_storage_missing :
    (∀ f : Fluid, analyze (buildIR (.fluid f)) = some [∅]) ∧
      (∀ sets : List (Finset ℕ), (∀ s ∈ sets, s = ∅) →
        buildInterferenceGraph sets = some ⟨[], []⟩) ∧
      IGraph.findMinColorCount ⟨[], []⟩ = none ∧
      (∀ l r : MixTree, ∃ sets G k,
        analyze (buildIR (.mix l r)) = some sets ∧
        buildInterferenceGraph sets = some G ∧ G.nodes ≠ [] ∧
        G.findMinColorCount = some k) := by
  refine ⟨?_, ?_, rfl, ?_⟩
  · intro f
    simp [buildIR, compileExpr, analyze, analyzeGo, liveStep, IROp.targetVreg,
      IROp.targetOperand, IROp.genSet]
  · intro sets h
    have hu : unionSets sets = ∅ := unionSets_eq_empty h
    have hn : numberOfVariablesUsed sets = 0 := by
      simp [numberOfVariablesUsed, hu]
    have hguard : sets.all
        (fun s => decide (∀ v ∈ s, v < numberOfVariablesUsed sets)) = true := by
      rw [List.all_eq_true]
      intro s hs
      rw [h s hs]
      simp
    simp only [buildInterferenceGraph, hn] at *
    rw [if_pos hguard]
    rw [buildEdges_of_empty sets h]
    rfl
  · intro l r
    obtain ⟨em, h1, _h2, _h3, _h4, _h5, _h6, h7, h8⟩ :=
      compileExpr_spec (MixTree.mix l r) []
    have hb : buildIR (MixTree.mix l r) = em := by
      simp [buildIR, h1]
    obtain ⟨sets, hsets, huni⟩ := analyze_total em h8
    simp only [List.length_nil, Nat.zero_add] at h7
    rw [h7] at huni
    have hN : 2 ≤ (MixTree.mix l r).size - 1 := by
      have := l.size_pos
      have := r.size_pos
      simp only [MixTree.size]
      omega
    have hcard : numberOfVariablesUsed sets = (MixTree.mix l r).size - 1 := by
      simp [numberOfVariablesUsed, huni, Nat.card_Ico]
    have hguard : sets.all
        (fun s => decide (∀ v ∈ s, v < numberOfVariablesUsed sets)) = true := by
      rw [List.all_eq_true]
      intro s hs
      rw [decide_eq_true_eq]
      intro v hv
      have hvu : v ∈ unionSets sets := subset_unionSets hs hv
      rw [huni, Finset.mem_Ico] at hvu
      rw [hcard]
      exact hvu.2
    set G : IGraph :=
      ⟨List.range ((MixTree.mix l r).size - 1),
        sets.foldr (fun s acc => livePairs (s.sort (· ≤ ·)) ++ acc) []⟩ with hG
    have hne2 : G.nodes ≠ [] := by
      simp only [hG, ne_eq, List.range_eq_nil]
      omega
    have hempty : G.nodes.isEmpty = false := by
      rw [Bool.eq_false_iff, ne_eq, List.isEmpty_iff]
      exact hne2
    have hfind : ∃ k, G.findMinColorCount = some k := by
      simp only [IGraph.findMinColorCount, hempty, Bool.false_eq_true, if_false]
      exact ⟨_, rfl⟩
    obtain ⟨k, hk⟩ := hfind
    refine ⟨sets, G, k, ?_, ?_, ?_, hk⟩
    · rw [hb]
      exact hsets
    · simp only [buildInterferenceGraph]
      rw [if_pos hguard, hcard]
    · simp only [hG, ne_eq, List.range_eq_nil]
      omega

theorem IGraph.colorable_mono {G : IGraph} {j k : ℕ} (hjk : j ≤ k)
    (h : G.Colorable j) : G.Colorable k := by
  obtain ⟨c, hb, he⟩ := h
  exact ⟨c, fun v hv => lt_of_lt_of_le (hb v hv) hjk, he⟩

theorem IGraph.tryColoring_iff {G : IGraph} (hwf : G.WF) (k : ℕ) :
    G.tryColoring k = true ↔ G.Colorable k := by
  rw [tryColoring, decide_eq_true_eq]
  constructor
  · rintro ⟨f, hf⟩
    classical
    refine ⟨fun v =>
      if h : v ∈ G.nodes then
        (f ⟨List.indexOf v G.nodes, List.indexOf_lt_length.2 h⟩ : ℕ)
      else 0, ?_, ?_⟩
    · intro v hv
      dsimp only
      rw [dif_pos hv]
      exact (f _).isLt
    · intro e he
      obtain ⟨h1, h2, _⟩ := hwf e he
      dsimp only
      rw [dif_pos h1, dif_pos h2]
      exact hf e he _ _ (List.indexOf_get _) (List.indexOf_get _)
  · rintro ⟨c, hb, he⟩
    refine ⟨fun i => ⟨c (G.nodes.get i), hb _ (G.nodes.get_mem i.1 i.2)⟩, ?_⟩
    intro e he' i j hi hj
    dsimp only
    rw [hi, hj]
    exact he e he'

theorem foldr_max_le {x : ℕ} : ∀ {l : List ℕ}, x ∈ l → x ≤ l.foldr max 0 := by
  intro l
  induction l with
  | nil => intro h; simp at h
  | cons y rest ih =>
    intro h
    rcases List.mem_cons.1 h with h | h
    · subst h
      exact le_max_left _ _
    · exact (ih h).trans (le_max_right _ _)

theorem IGraph.degree_le_maxDegree {G : IGraph} {v : ℕ} (h : v ∈ G.nodes) :
    G.degree v ≤ G.maxDegree :=
  foldr_max_le (List.mem_map_of_mem G.degree h)

theorem greedy_aux (G : IGraph) (D : ℕ) :
    ∀ l : List ℕ, (∀ v ∈ l, G.degree v ≤ D) →
    ∃ c : ℕ → ℕ, (∀ v ∈ l, c v < D + 1) ∧
      ∀ e ∈ G.edges, e.1 ∈ l → e.2 ∈ l → e.1 ≠ e.2 → c e.1 ≠ c e.2 := by
  intro l
  induction l with
  | nil =>
    intro _
    exact ⟨fun _ => 0, by simp, by simp⟩
  | cons v rest ih =>
    intro hdeg
    obtain ⟨c, hc1, hc2⟩ := ih fun x hx => hdeg x (by simp [hx])
    by_cases hv : v ∈ rest
    · refine ⟨c, ?_, ?_⟩
      · intro x hx
        rcases List.mem_cons.1 hx with hx | hx
        · subst hx; exact hc1 x hv
        · exact hc1 x hx
      · intro e he h1 h2 hne
        have h1' : e.1 ∈ rest := by
          rcases List.mem_cons.1 h1 with h | h
          · subst h; exact hv
          · exact h
        have h2' : e.2 ∈ rest := by
          rcases List.mem_cons.1 h2 with h | h
          · subst h; exact hv
          · exact h
        exact hc2 e he h1' h2' hne
    · classical
      set nbrList := (G.edges.filter (fun e => e.1 = v || e.2 = v)).map
        (fun e => c (if e.1 = v then e.2 else e.1)) with hnbr
      have hcard : nbrList.toFinset.card ≤ D := by
        calc nbrList.toFinset.card ≤ nbrList.length := List.toFinset_card_le _
        _ = G.degree v := by simp [hnbr, IGraph.degree]
        _ ≤ D := hdeg v (by simp)
      have hfree : ∃ col, col ∈ Finset.range (D + 1) ∧ col ∉ nbrList.toFinset := by
        have hns : ¬ (Finset.range (D + 1) ⊆ nbrList.toFinset) := by
          intro hsub
          have := Finset.card_le_card hsub
          rw [Finset.card_range] at this
          omega
        obtain ⟨col, hcr, hcn⟩ := Finset.not_subset.1 hns
        exact ⟨col, hcr, hcn⟩
      obtain ⟨col, hcolr, hcoln⟩ := hfree
      rw [Finset.mem_range] at hcolr
      refine ⟨fun x => if x = v then col else c x, ?_, ?_⟩
      · intro x hx
        dsimp only
        rcases List.mem_cons.1 hx with hx | hx
        · subst hx
          rw [if_pos rfl]
          exact hcolr
        · have hxv : x ≠ v := fun hcontra => hv (hcontra ▸ hx)
          rw [if_neg hxv]
          exact hc1 x hx
      · intro e he h1 h2 hne
        dsimp only
        rcases List.mem_cons.1 h1 with he1 | he1 <;> rcases List.mem_cons.1 h2 with he2 | he2
        · exact absurd (he1.trans he2.symm) hne
        · have he2v : e.2 ≠ v := fun hcontra => hne (he1.trans hcontra.symm)
          rw [if_pos he1, if_neg he2v]
          intro hcontra
          apply hcoln
          rw [List.mem_toFinset, hnbr]
          refine List.mem_map.2 ⟨e, List.mem_filter.2 ⟨he, by simp [he1]⟩, ?_⟩
          rw [if_pos he1, ← hcontra]
        · have he1v : e.1 ≠ v := fun hcontra => hne (hcontra.trans he2.symm)
          rw [if_neg he1v, if_pos he2]
          intro hcontra
          apply hcoln
          rw [List.mem_toFinset, hnbr]
          refine List.mem_map.2 ⟨e, List.mem_filter.2 ⟨he, by simp [he2]⟩, ?_⟩
          rw [if_neg he1v, hcontra]
        · have he1v : e.1 ≠ v := fun hcontra => hv (hcontra ▸ he1)
          have he2v : e.2 ≠ v := fun hcontra => hv (hcontra ▸ he2)
          rw [if_neg he1v, if_neg he2v]
          exact hc2 e he he1 he2 hne

theorem IGraph.greedy (G : IGraph) (hwf : G.WF) : G.Colorable (G.maxDegree + 1) := by
  obtain ⟨c, hc1, hc2⟩ := greedy_aux G G.maxDegree G.nodes
    (fun v hv => degree_le_maxDegree hv)
  exact ⟨c, hc1, fun e he =>
    hc2 e he (hwf e he).1 (hwf e he).2.1 (hwf e he).2.2⟩

theorem IGraph.minColorLoop_correct (G : IGraph) (hwf : G.WF) :
    ∀ (fuel lo hi cur : ℕ), hi + 1 ≤ lo + fuel → 1 ≤ lo →
    (∀ j, j < lo → ¬G.Colorable j) → G.Colorable cur → cur ≤ hi + 1 →
    G.Colorable (G.minColorLoop fuel lo hi cur) ∧
      ∀ j, j < G.minColorLoop fuel lo hi cur → ¬G.Colorable j := by
  intro fuel
  induction fuel with
  | zero =>
    intro lo hi cur hfuel hlo hbelow hcur hle
    simp only [minColorLoop]
    exact ⟨hcur, fun j hj => hbelow j (by omega)⟩
  | succ fuel ih =>
    intro lo hi cur hfuel hlo hbelow hcur hle
    simp only [minColorLoop]
    by_cases hcond : lo ≤ hi
    · rw [if_pos hcond]
      by_cases htc : tryColoring G ((lo + hi) / 2) = true
      · rw [if_pos htc]
        have hcm := (tryColoring_iff hwf _).1 htc
        apply ih
        · omega
        · omega
        · exact hbelow
        · rcases le_total cur ((lo + hi) / 2) with h | h
          · rw [min_eq_left h]; exact hcur
          · rw [min_eq_right h]; exact hcm
        · have := min_le_right cur ((lo + hi) / 2)
          omega
      · rw [if_neg htc]
        have hnc : ¬G.Colorable ((lo + hi) / 2) :=
          fun h => htc ((tryColoring_iff hwf _).2 h)
        apply ih
        · omega
        · omega
        · intro j hj
          by_cases hjlo : j < lo
          · exact hbelow j hjlo
          · intro hcj
            exact hnc (colorable_mono (by omega) hcj)
        · exact hcur
        · omega
    · rw [if_neg hcond]
      exact ⟨hcur, fun j hj => hbelow j (by omega)⟩

theorem IGraph.chromatic_of_wf (G : IGraph) (hwf : G.WF)
    (hne : G.nodes ≠ []) :
    ∃ r, G.findMinColorCount = some r ∧ 1 ≤ r ∧ G.Colorable r ∧
      ∀ j, j < r → ¬G.Colorable j := by
  have hempty : G.nodes.isEmpty = false := by
    rw [Bool.eq_false_iff, ne_eq, List.isEmpty_iff]
    exact hne
  have hD := IGraph.greedy G hwf
  have hzero : ¬G.Colorable 0 := by
    rintro ⟨c, hb, _⟩
    obtain ⟨v, hv⟩ := List.exists_mem_of_ne_nil G.nodes hne
    exact absurd (hb v hv) (by omega)
  have hmain := IGraph.minColorLoop_correct G hwf (G.maxDegree + 2) 1
    (G.maxDegree + 1) (G.maxDegree + 1) (by omega) (by omega)
    (fun j hj => by
      have hj0 : j = 0 := by omega
      rw [hj0]
      exact hzero)
    hD (by omega)
  refine ⟨_, ?_, ?_, hmain.1, hmain.2⟩
  · simp only [IGraph.findMinColorCount, hempty, Bool.false_eq_true, if_false]
  · by_contra h
    push_neg at h
    have h0 : G.minColorLoop (G.maxDegree + 2) 1 (G.maxDegree + 1)
        (G.maxDegree + 1) = 0 := by omega
    rw [h0] at hmain
    exact hzero hmain.1

theorem livePairs_mem : ∀ (l : List ℕ) (p : ℕ × ℕ), p ∈ livePairs l →
    p.1 ∈ l ∧ p.2 ∈ l ∧ (l.Nodup → p.1 ≠ p.2) := by
  intro l
  induction l with
  | nil => intro p hp; simp [livePairs] at hp
  | cons x rest ih =>
    intro p hp
    simp only [livePairs, List.mem_append, List.mem_map] at hp
    rcases hp with ⟨y, hy, hpy⟩ | hp
    · subst hpy
      refine ⟨by simp, by simp [hy], ?_⟩
      intro hnodup heq
      have hx : x ∉ rest := (List.nodup_cons.1 hnodup).1
      have hxy : x = y := by simpa using heq
      exact hx (hxy ▸ hy)
    · obtain ⟨h1, h2, h3⟩ := ih p hp
      exact ⟨by simp [h1], by simp [h2],
        fun hnodup => h3 (List.nodup_cons.1 hnodup).2⟩

theorem buildEdges_mem (sets : List (Finset ℕ)) (p : ℕ × ℕ)
    (hp : p ∈ sets.foldr (fun s acc => livePairs (s.sort (· ≤ ·)) ++ acc) []) :
    ∃ s ∈ sets, p ∈ livePairs (s.sort (· ≤ ·)) := by
  induction sets with
  | nil => simp at hp
  | cons t rest ih =>
    simp only [List.foldr_cons, List.mem_append] at hp
    rcases hp with hp | hp
    · exact ⟨t, by simp, hp⟩
    · obtain ⟨s, hs, hps⟩ := ih hp
      exact ⟨s, by simp [hs], hps⟩

theorem buildInterferenceGraph_wf (sets : List (Finset ℕ)) (G : IGraph)
    (h : buildInterferenceGraph sets = some G) : G.WF := by
  rw [buildInterferenceGraph] at h
  by_cases hguard : sets.all
      (fun s => decide (∀ v ∈ s, v < numberOfVariablesUsed sets)) = true
  · rw [if_pos hguard] at h
    have hG : G = ⟨List.range (numberOfVariablesUsed sets),
        sets.foldr (fun s acc => livePairs (s.sort (· ≤ ·)) ++ acc) []⟩ :=
      (Option.some.injEq _ _ ▸ h).symm
    subst hG
    intro e he
    obtain ⟨s, hs, hes⟩ := buildEdges_mem sets e he
    obtain ⟨h1, h2, h3⟩ := livePairs_mem _ e hes
    have hbound := List.all_eq_true.1 hguard s hs
    rw [decide_eq_true_eq] at hbound
    rw [Finset.mem_sort] at h1 h2
    refine ⟨?_, ?_, h3 (Finset.sort_nodup _ _)⟩
    · rw [List.mem_range]
      exact hbound _ h1
    · rw [List.mem_range]
      exact hbound _ h2
  · rw [if_neg hguard] at h
    simp at h

/-- C2: the interference-graph builder only produces well-formed graphs
(edges join two distinct existing nodes), and on every well-formed graph
with at least one node `find_min_color_count` returns the true chromatic
number: the smallest `k ≥ 1` for which the coloring constraint system is
satisfiable, found by binary search between `1` and `max degree + 1` (the
solver modelled as an exact decision procedure, so `Unsat`/`Unknown` never
hides a satisfiable instance). -/
theorem findMinColorCount_chromatic :
    (∀ (sets : List (Finset ℕ)) (G : IGraph),
        buildInterferenceGraph sets = some G → G.WF) ∧
      ∀ G : IGraph, G.WF → G.nodes ≠ [] →
        ∃ r, G.findMinColorCount = some r ∧ 1 ≤ r ∧ G.Colorable r ∧
          ∀ j, j < r → ¬G.Colorable j :=
  ⟨buildInterferenceGraph_wf, IGraph.chromatic_of_wf⟩

/-- Witness for `findMinColorCount_chromatic`: the builder output on the
liveness list `[{0,1}]` is well-formed, and the chromatic search is exact
on the triangle graph. -/
theorem findMinColorCount_chromatic_witness :
    IGraph.WF ⟨[], []⟩ ∧
      (∃ r, IGraph.findMinColorCount ⟨[0, 1, 2], [(0, 1), (1, 2), (0, 2)]⟩ = some r ∧
        1 ≤ r ∧ IGraph.Colorable ⟨[0, 1, 2], [(0, 1), (1, 2), (0, 2)]⟩ r ∧
        ∀ j, j < r → ¬IGraph.Colorable ⟨[0, 1, 2], [(0, 1), (1, 2), (0, 2)]⟩ j) :=
  ⟨findMinColorCount_chromatic.1 [] ⟨[], []⟩ (by decide),
    findMinColorCount_chromatic.2 _ (by decide) (by decide)⟩

/-- Witness for `single_leaf_storage_missing` at a concrete fluid and the
all-empty liveness list. -/
theorem single_leaf_storage_missing_witness :
    analyze (buildIR (.fluid exampleFluid)) = some [∅] ∧
      buildInterferenceGraph [∅] = some ⟨[], []⟩ :=
  ⟨single_leaf_storage_missing.1 exampleFluid,
    single_leaf_storage_missing.2.1 [∅] (by simp)⟩

theorem foldl_add_costs (costs : ℕ → ℚ) :
    ∀ (l : List ℕ) (b : ℚ),
    l.foldl (fun sum i => sum + costs i) b = b + (l.map costs).sum := by
  intro l
  induction l with
  | nil => intro b; simp
  | cons x xs ih =>
    intro b
    simp only [List.foldl_cons, List.map_cons, List.sum_cons]
    rw [ih]
    ring

theorem min'_insert_min (a b : ℚ) (s : Finset ℚ) :
    (insert (min a b) s).min' (Finset.insert_nonempty _ _)
      = (insert a (insert b s)).min' (Finset.insert_nonempty _ _) := by
  apply le_antisymm
  · apply Finset.le_min'
    intro y hy
    rcases Finset.mem_insert.1 hy with hy | hy
    · rw [hy]
      exact (Finset.min'_le _ _ (Finset.mem_insert_self _ _)).trans (min_le_left a b)
    · rcases Finset.mem_insert.1 hy with hy | hy
      · rw [hy]
        exact (Finset.min'_le _ _ (Finset.mem_insert_self _ _)).trans (min_le_right a b)
      · exact Finset.min'_le _ _ (Finset.mem_insert_of_mem hy)
  · apply Finset.le_min'
    intro y hy
    rcases Finset.mem_insert.1 hy with hy | hy
    · rw [hy]
      rcases le_total a b with h | h
      · rw [min_eq_left h]
        exact Finset.min'_le _ _ (Finset.mem_insert_self _ _)
      · rw [min_eq_right h]
        exact Finset.min'_le _ _
          (Finset.mem_insert_of_mem (Finset.mem_insert_self _ _))
    · exact Finset.min'_le _ _
        (Finset.mem_insert_of_mem (Finset.mem_insert_of_mem hy))

theorem foldl_min_eq_min' (f : LimitedFloat → ℚ) :
    ∀ (stock : List LimitedFloat) (a : ℚ),
    stock.foldl (fun m val => if f val < m then f val else m) a
      = (insert a ((stock.map f).toFinset)).min' (Finset.insert_nonempty _ _) := by
  intro stock
  induction stock with
  | nil =>
    intro a
    simp [Finset.min'_singleton]
  | cons x xs ih =>
    intro a
    simp only [List.foldl_cons]
    have hstep : (if f x < a then f x else a) = min a (f x) := by
      split
      · next h => rw [min_eq_right (le_of_lt h)]
      · next h => rw [min_eq_left (le_of_not_lt h)]
    rw [hstep, ih, min'_insert_min]
    congr 1
    simp

theorem proximityCost_eq_specProximity (conc : LimitedFloat)
    (stock : List LimitedFloat) :
    proximityCost conc stock = specProximity conc stock := by
  refine Eq.trans
    (foldl_min_eq_min' (fun val => |(LimitedFloat.sub conc val).toRat|) stock 1) ?_
  unfold specProximity
  congr 2
  exact congrArg List.toFinset
    (congrArg (fun h => List.map h stock)
      (funext fun val => by rw [LimitedFloat.toRat_sub]))

/-- C4: the extraction cost of every e-node is its base cost plus the sum
of the (already minimized) costs of its children, with base cost `0` for a
numeric literal, `100` for `Add`/`Sub`/`Div`/`Mult`, `1` for `Mix`, and for
a `Fluid` node with numeric children: `0` in stock, `f64::MAX` at the
target outside stock, otherwise `min(1, min over stock of |c - s|)` scaled
by `1/ε = 10000` (an empty stock giving proximity `1`); `1000` for a
`Fluid` with non-numeric children. -/
theorem opCost_base_plus_children (target : LimitedFloat)
    (stock : List LimitedFloat) (data : ℕ → Option LimitedFloat)
    (costs : ℕ → ℚ) (enode : MixNode) :
    opCost target stock data costs enode
      = opCostSpecBase target stock data enode
        + (enode.children.map costs).sum := by
  simp only [opCost]
  rw [foldl_add_costs]
  congr 1
  cases enode with
  | lit x => rfl
  | add a b => rfl
  | sub a b => rfl
  | div a b => rfl
  | mult a b => rfl
  | mixN a b => rfl
  | fluidN a b =>
    simp only [opCostSpecBase, fluidBaseCost]
    cases data a <;> cases data b <;>
      simp [proximityCost_eq_specProximity]

theorem fMAX_pos : (0 : ℚ) < fMAX := by
  rw [fMAX]
  positivity

theorem proximityCost_nonneg (conc : LimitedFloat) (stock : List LimitedFloat) :
    0 ≤ proximityCost conc stock := by
  rw [proximityCost]
  have hgen : ∀ (l : List LimitedFloat) (a : ℚ), 0 ≤ a →
      0 ≤ l.foldl (fun m val =>
        if |(LimitedFloat.sub conc val).toRat| < m
        then |(LimitedFloat.sub conc val).toRat| else m) a := by
    intro l
    induction l with
    | nil => intro a ha; simpa using ha
    | cons x xs ih =>
      intro a ha
      simp only [List.foldl_cons]
      apply ih
      split
      · exact abs_nonneg _
      · exact ha
  exact hgen stock 1 (by norm_num)

theorem fluidBaseCost_nonneg (target : LimitedFloat) (stock : List LimitedFloat)
    (dc dv : Option LimitedFloat) : 0 ≤ fluidBaseCost target stock dc dv := by
  cases dc with
  | none => cases dv <;> norm_num [fluidBaseCost]
  | some conc =>
    cases dv with
    | none => norm_num [fluidBaseCost]
    | some vol =>
      simp only [fluidBaseCost]
      split
      · norm_num
      · split
        · exact fMAX_pos.le
        · exact mul_nonneg (proximityCost_nonneg _ _) (by norm_num)

theorem MixExpr.treeCost_nonneg (target : LimitedFloat)
    (stock : List LimitedFloat) :
    ∀ e : MixExpr, 0 ≤ e.treeCost target stock := by
  intro e
  induction e with
  | lit x => norm_num [treeCost]
  | add l r ihl ihr => simp only [treeCost]; linarith
  | sub l r ihl ihr => simp only [treeCost]; linarith
  | div l r ihl ihr => simp only [treeCost]; linarith
  | mult l r ihl ihr => simp only [treeCost]; linarith
  | mixE l r ihl ihr => simp only [treeCost]; linarith
  | fluidE c v ihc ihv =>
    simp only [treeCost]
    have := fluidBaseCost_nonneg target stock c.nodeData v.nodeData
    linarith

theorem MixExpr.forbidden_leaf_cost_ge (target : LimitedFloat)
    (stock : List LimitedFloat) :
    ∀ e : MixExpr, e.hasForbiddenFluidLeaf target stock = true →
      fMAX ≤ e.treeCost target stock := by
  intro e
  induction e with
  | lit x => intro h; simp [hasForbiddenFluidLeaf] at h
  | add l r ihl ihr =>
    intro h
    simp only [hasForbiddenFluidLeaf, Bool.or_eq_true] at h
    have hl := l.treeCost_nonneg target stock
    have hr := r.treeCost_nonneg target stock
    rcases h with h | h
    · have := ihl h; simp only [treeCost]; linarith
    · have := ihr h; simp only [treeCost]; linarith
  | sub l r ihl ihr =>
    intro h
    simp only [hasForbiddenFluidLeaf, Bool.or_eq_true] at h
    have hl := l.treeCost_nonneg target stock
    have hr := r.treeCost_nonneg target stock
    rcases h with h | h
    · have := ihl h; simp only [treeCost]; linarith
    · have := ihr h; simp only [treeCost]; linarith
  | div l r ihl ihr =>
    intro h
    simp only [hasForbiddenFluidLeaf, Bool.or_eq_true] at h
    have hl := l.treeCost_nonneg target stock
    have hr := r.treeCost_nonneg target stock
    rcases h with h | h
    · have := ihl h; simp only [treeCost]; linarith
    · have := ihr h; simp only [treeCost]; linarith
  | mult l r ihl ihr =>
    intro h
    simp only [hasForbiddenFluidLeaf, Bool.or_eq_true] at h
    have hl := l.treeCost_nonneg target stock
    have hr := r.treeCost_nonneg target stock
    rcases h with h | h
    · have := ihl h; simp only [treeCost]; linarith
    · have := ihr h; simp only [treeCost]; linarith
  | mixE l r ihl ihr =>
    intro h
    simp only [hasForbiddenFluidLeaf, Bool.or_eq_true] at h
    have hl := l.treeCost_nonneg target stock
    have hr := r.treeCost_nonneg target stock
    rcases h with h | h
    · have := ihl h; simp only [treeCost]; linarith
    · have := ihr h; simp only [treeCost]; linarith
  | fluidE c v ihc ihv =>
    intro h
    simp only [hasForbiddenFluidLeaf, Bool.or_eq_true] at h
    have hc0 := c.treeCost_nonneg target stock
    have hv0 := v.treeCost_nonneg target stock
    have hbase := fluidBaseCost_nonneg target stock c.nodeData v.nodeData
    rcases h with (h | h) | h
    · have hown : fluidBaseCost target stock c.nodeData v.nodeData = fMAX := by
        cases hdc : c.nodeData with
        | none => rw [hdc] at h; simp at h
        | some conc =>
          cases hdv : v.nodeData with
          | none => rw [hdc, hdv] at h; simp at h
          | some vol =>
            rw [hdc, hdv] at h
            simp only [Bool.and_eq_true, decide_eq_true_eq, Bool.not_eq_true',
              decide_eq_false_iff_not] at h
            obtain ⟨heq, hmem⟩ := h
            simp only [fluidBaseCost]
            rw [if_neg hmem, if_pos heq.symm]
      simp only [treeCost, hown]
      linarith
    · have := ihc h; simp only [treeCost]; linarith
    · have := ihv h; simp only [treeCost]; linarith

/-- C9 (counterexample): on the initial e-graph of a saturation run with
target `0.5` and stock `{0.9}` that stops before the first rewrite round
(time budget exhausted — the spec says a timed-out saturation is a normal
result handed to the extractor), every e-class has a single e-node, so the
extractor is forced to return `(fluid 0.5 BIG)`: a fluid leaf whose
concentration equals the target although the target is not in stock. -/
theorem extractor_returns_target_leaf_on_timeout :
    extractBest initialClasses targetConc stock09 3 2
      = some (.fluidE (.lit targetConc) (.lit initialVol)) ∧
      MixExpr.hasForbiddenFluidLeaf targetConc stock09
        (.fluidE (.lit targetConc) (.lit initialVol)) = true ∧
      targetConc ∉ stock09 := by
  refine ⟨rfl, by decide, by decide⟩

/-- C9 (amended): a fluid leaf carrying the target concentration outside
the stock can appear in an extracted expression only when the expression's
total cost is at least `f64::MAX`; whenever the extractor finds any
expression cheaper than `f64::MAX`, no such leaf occurs in it. -/
theorem cheap_extraction_has_no_target_leaf (target : LimitedFloat)
    (stock : List LimitedFloat) (e : MixExpr)
    (h : e.treeCost target stock < fMAX) :
    e.hasForbiddenFluidLeaf target stock = false := by
  by_contra hc
  rw [Bool.not_eq_false] at hc
  have := MixExpr.forbidden_leaf_cost_ge target stock e hc
  linarith

/-- Witness for `cheap_extraction_has_no_target_leaf`: the stock leaf
`(fluid 0.9 1.0)` costs `0 < f64::MAX` and indeed carries no target leaf. -/
theorem cheap_extraction_has_no_target_leaf_witness :
    MixExpr.treeCost targetConc stock09 (.fluidE (.lit ⟨9000⟩) (.lit ⟨10000⟩)) < fMAX ∧
      MixExpr.hasForbiddenFluidLeaf targetConc stock09
        (.fluidE (.lit ⟨9000⟩) (.lit ⟨10000⟩)) = false := by
  have hcost : MixExpr.treeCost targetConc stock09
      (.fluidE (.lit ⟨9000⟩) (.lit ⟨10000⟩)) < fMAX := by
    simp only [MixExpr.treeCost, MixExpr.nodeData, fluidBaseCost]
    rw [if_pos (by simp [stock09] : (⟨9000⟩ : LimitedFloat) ∈ stock09)]
    simpa using fMAX_pos
  exact ⟨hcost,
    cheap_extraction_has_no_target_leaf targetConc stock09
      (.fluidE (.lit ⟨9000⟩) (.lit ⟨10000⟩)) hcost⟩

/-- C8 (code bug): the `Add` arm of `ArithmeticAnalysis::make` `unwrap`s the
child data, so with a first child carrying `⊥` it panics (`none`) instead of
returning `⊥`; the spec-modelled total `make` returns `⊥` there, and both
agree on the two-`Number` case. -/
theorem make_arith_panics_on_bot :
    makeArith LimitedFloat.add .bot (.num ⟨10000⟩) = none ∧
      makeArithSpec LimitedFloat.add .bot (.num ⟨10000⟩) = .bot ∧
      makeArith LimitedFloat.add (.num ⟨3⟩) (.num ⟨4⟩)
        = some (.num (LimitedFloat.add ⟨3⟩ ⟨4⟩)) := by
  refine ⟨rfl, rfl, rfl⟩

end Fluido
